import Mathlib

/-!
Verification of `src/32MX_SP/src/main.c` (PIC32MX ADC sampling with UART
command control).

The shared state of the firmware consists of the four `volatile` globals
(`adcSum`, `sampleCount`, `dataReady`, `adcEnabled`) together with the
receive line buffer (`rxBuffer` / `rxIndex`).  The code keeps `rxIndex`
equal to the length of the NUL-terminated content of `rxBuffer` at every
write site, so the pair is embedded as a single `List Char` whose length
plays the role of `rxIndex`.  The two 32-bit unsigned counters are embedded
as `Nat` reduced modulo `2 ^ 32` at each update.

The three operations are embedded as pure functions:
* `ADC_Callback` — the conversion-complete interrupt handler;
* `UART_RX_Callback` — the receive interrupt handler (one byte per call);
* `Calculate_ADC_Average` — the main-loop reporter.

Hardware effects are represented explicitly: a UART transmission becomes an
`Option String` / `List String` result, the unconditional
`EVIC_SourceStatusClear` becomes the `intCleared` field (set in every
branch, as in the source), and the unconditional re-arming `UART2_Read`
call at the end of the receive handler becomes the `rearmed` field.
-/

/-- `#define ADC_SAMPLE_COUNT 1200` — the averaging window size. -/
def ADC_SAMPLE_COUNT : Nat := 1200

/-- Modulus of the `uint32_t` arithmetic used for `adcSum` and
`sampleCount`. -/
def UINT32_MOD : Nat := 2 ^ 32

/-- Capacity of `rxBuffer` (`char rxBuffer[16]`), so `sizeof(rxBuffer) - 1
= 15` is the maximal stored line length. -/
def RX_BUFFER_SIZE : Nat := 16

/-- The shared mutable state of the firmware: the four `volatile` globals
plus the receive line buffer.  `rxBuf` is the content of `rxBuffer` up to
the terminating NUL; the source keeps `rxIndex` equal to its length. -/
structure State where
  adcSum : Nat
  sampleCount : Nat
  dataReady : Bool
  adcEnabled : Bool
  rxBuf : List Char
deriving Repr, DecidableEq

/-- The initial values of the globals (`adcSum = 0`, `sampleCount = 0`,
`dataReady = false`, `adcEnabled = false`, empty receive buffer). -/
def initState : State :=
  { adcSum := 0, sampleCount := 0, dataReady := false, adcEnabled := false,
    rxBuf := [] }

/-- Result of `Calculate_ADC_Average`: the updated state and the line
transmitted over UART2, if any. -/
def Calculate_ADC_Average (s : State) : State × Option String :=
  let currentSum := s.adcSum
  let currentCount := s.sampleCount
  let s' : State :=
    { s with adcSum := 0, sampleCount := 0, dataReady := false }
  if currentCount = 0 then
    (s', none)
  else
    let average := currentSum / currentCount
    (s', some (Nat.repr average ++ "\r\n"))

/-- Result of one invocation of the receive interrupt handler. -/
structure RxResult where
  state : State
  out : Option String
  rearmed : Bool
deriving Repr, DecidableEq

/-- `UART_RX_Callback`: filter non-printable bytes, append to the line
buffer when there is room, recognize `"START"` / `"STOP"`, reset the buffer
when it fills without a match, and unconditionally re-arm the receive
interrupt.  The received byte is the value of the global `rxByte`; byte
values above `0x7E` fail the printable test whether `char` is signed or
unsigned, so embedding the byte as a `Char` and testing its code point is
faithful. -/
def UART_RX_Callback (rxByte : Char) (s : State) : RxResult :=
  if 0x20 ≤ rxByte.toNat ∧ rxByte.toNat ≤ 0x7E then
    if s.rxBuf.length < RX_BUFFER_SIZE - 1 then
      let buf := s.rxBuf ++ [rxByte]
      if buf = "START".data then
        { state := { s with adcEnabled := true, rxBuf := [] },
          out := some "OK_START\r\n", rearmed := true }
      else if buf = "STOP".data then
        { state := { s with adcEnabled := false, adcSum := 0,
                            sampleCount := 0, dataReady := false,
                            rxBuf := [] },
          out := some "OK_STOP\r\n", rearmed := true }
      else if RX_BUFFER_SIZE - 1 ≤ buf.length then
        { state := { s with rxBuf := [] }, out := none, rearmed := true }
      else
        { state := { s with rxBuf := buf }, out := none, rearmed := true }
    else
      { state := s, out := none, rearmed := true }
  else
    { state := s, out := none, rearmed := true }

/-- Result of one invocation of the conversion-complete interrupt handler.
`intCleared` records the unconditional `EVIC_SourceStatusClear`. -/
structure AdcResult where
  state : State
  intCleared : Bool
deriving Repr, DecidableEq

/-- `ADC_Callback`: clear the interrupt condition unconditionally, return
if sampling is not enabled, otherwise accumulate the newest converted
sample (`uint32_t` arithmetic) and raise `dataReady` once the window is
full. -/
def ADC_Callback (sample : Nat) (s : State) : AdcResult :=
  if !s.adcEnabled then
    { state := s, intCleared := true }
  else
    let sum := (s.adcSum + sample) % UINT32_MOD
    let cnt := (s.sampleCount + 1) % UINT32_MOD
    let ready := if ADC_SAMPLE_COUNT ≤ cnt then true else s.dataReady
    { state := { s with adcSum := sum, sampleCount := cnt,
                        dataReady := ready },
      intCleared := true }

/-- Feed a sequence of received bytes through `UART_RX_Callback`,
collecting the acknowledgement lines in transmission order. -/
def processBytes (bs : List Char) (s : State) : State × List String :=
  match bs with
  | [] => (s, [])
  | b :: rest =>
    let r := UART_RX_Callback b s
    let rec' := processBytes rest r.state
    (rec'.1, r.out.toList ++ rec'.2)

/-- One ADC interrupt with a fixed sample value, keeping only the state. -/
def adcStep (sample : Nat) (s : State) : State :=
  (ADC_Callback sample s).state

/-- Accumulate a list of converted samples through `ADC_Callback`. -/
def foldAdc (samples : List Nat) (s : State) : State :=
  samples.foldl (fun st x => adcStep x st) s

/-- The states reachable from power-on by any interleaving of the two
interrupt handlers and the main-loop reporter. -/
inductive Reachable : State → Prop where
  | init : Reachable initState
  | adc (sample : Nat) {s : State} : Reachable s →
      Reachable (ADC_Callback sample s).state
  | uart (b : Char) {s : State} : Reachable s →
      Reachable (UART_RX_Callback b s).state
  | avg {s : State} : Reachable s →
      Reachable (Calculate_ADC_Average s).1

/-- Modelled from the spec: the maximum converted value the hardware can
hand to `ADC_Callback`.  The ADC driver (`definitions.h`, Harmony) is not
part of the repository; the spec describes the sample as an "unsigned
integer of the device's ADC resolution", and the PIC32MX274F256B ADC
converts to 10 bits, so `ADC_ResultGet` is bounded by `2 ^ 10 - 1`. -/
def ADC_MAX_VALUE : Nat := 1023

/-- The state after the firmware has received a `START` command at
power-on. -/
def startedState : State := (processBytes "START".data initState).1

/-- The state after `START` followed by `ADC_SAMPLE_COUNT + 1` conversion
interrupts with no intervening run of the main-loop reporter. -/
def cexState : State := (adcStep 0)^[ADC_SAMPLE_COUNT + 1] startedState

/-- Claim C1: whenever the snapshotted count is non-zero,
`Calculate_ADC_Average` resets the accumulator and transmits exactly the
decimal representation of the floor division of the snapshotted sum by the
snapshotted count, followed by `"\r\n"`. -/
theorem calculate_average_output (s : State) (h : s.sampleCount ≠ 0) :
    Calculate_ADC_Average s =
      ({ s with adcSum := 0, sampleCount := 0, dataReady := false },
        some (Nat.repr (s.adcSum / s.sampleCount) ++ "\r\n")) := by
  unfold Calculate_ADC_Average
  simp [h]

/-- Witness for C1 on the spec's two scenarios: a window of samples
`[10, 20, 30]` (sum 60, count 3) reports `"20\r\n"`, and a window of
`[10, 21, 10]` (sum 41, count 3) reports `"13\r\n"`. -/
theorem calculate_average_output_witness :
    (Calculate_ADC_Average
        { adcSum := 60, sampleCount := 3, dataReady := true,
          adcEnabled := true, rxBuf := [] }).2 = some "20\r\n" ∧
    (Calculate_ADC_Average
        { adcSum := 41, sampleCount := 3, dataReady := true,
          adcEnabled := true, rxBuf := [] }).2 = some "13\r\n" := by
  constructor
  · rw [calculate_average_output _ (by decide)]
    rfl
  · rw [calculate_average_output _ (by decide)]
    rfl

/-- Claim C5: when the snapshotted count is zero, `Calculate_ADC_Average`
still resets the accumulator but returns without transmitting anything —
the division is never reached. -/
theorem calculate_average_count_zero (s : State) (h : s.sampleCount = 0) :
    Calculate_ADC_Average s =
      ({ s with adcSum := 0, sampleCount := 0, dataReady := false },
        none) := by
  unfold Calculate_ADC_Average
  simp [h]

/-- Witness for C5 at the power-on state. -/
theorem calculate_average_count_zero_witness :
    Calculate_ADC_Average initState =
      ({ initState with adcSum := 0, sampleCount := 0, dataReady := false },
        none) :=
  calculate_average_count_zero initState rfl

/-- Claim C6: a byte outside the printable range `0x20`–`0x7E` is dropped
silently: the state (buffer, enable flag, accumulator) is unchanged,
nothing is transmitted, and the receive interrupt is still re-armed. -/
theorem uart_nonprintable_discarded (b : Char) (s : State)
    (h : ¬(0x20 ≤ b.toNat ∧ b.toNat ≤ 0x7E)) :
    UART_RX_Callback b s = { state := s, out := none, rearmed := true } := by
  unfold UART_RX_Callback
  simp [h]

/-- Witness for C6 at byte `0x00` in the power-on state. -/
theorem uart_nonprintable_discarded_witness :
    UART_RX_Callback (Char.ofNat 0) initState =
      { state := initState, out := none, rearmed := true } :=
  uart_nonprintable_discarded (Char.ofNat 0) initState (by decide)

/-- Claim C9: while sampling is disabled, `ADC_Callback` leaves the whole
state unchanged; its only effect is the unconditional clearing of the
interrupt condition. -/
theorem adc_callback_disabled (sample : Nat) (s : State)
    (h : s.adcEnabled = false) :
    ADC_Callback sample s = { state := s, intCleared := true } := by
  unfold ADC_Callback
  simp [h]

/-- Witness for C9 at the power-on state. -/
theorem adc_callback_disabled_witness :
    ADC_Callback 7 initState = { state := initState, intCleared := true } :=
  adc_callback_disabled 7 initState rfl

/-- Claim C3: whenever appending one more byte makes the line buffer read
exactly `"STOP"`, the recognizer disables sampling, resets the accumulator
to `{sum := 0, count := 0, ready := false}`, empties the buffer and
acknowledges with `"OK_STOP\r\n"`; if the accumulator was already zeroed
this changes nothing beyond the acknowledgement. -/
theorem uart_stop_recognized (s : State) (b : Char)
    (h : s.rxBuf ++ [b] = "STOP".data) :
    UART_RX_Callback b s =
      { state := { s with adcEnabled := false, adcSum := 0,
                          sampleCount := 0, dataReady := false,
                          rxBuf := [] },
        out := some "OK_STOP\r\n", rearmed := true } := by
  have h4 : s.rxBuf ++ [b] = ['S', 'T', 'O'] ++ ['P'] := h
  obtain ⟨hbuf, hb⟩ := List.append_inj' h4 rfl
  have hb' : b = 'P' := by injection hb
  obtain ⟨sum, cnt, rdy, en, buf⟩ := s
  simp only [State.rxBuf] at hbuf
  subst hbuf hb'
  rfl

/-- Witness for C3: the byte `'P'` arriving with `"STO"` buffered. -/
theorem uart_stop_recognized_witness :
    UART_RX_Callback 'P'
        { adcSum := 5, sampleCount := 2, dataReady := false,
          adcEnabled := true, rxBuf := "STO".data } =
      { state := { adcSum := 0, sampleCount := 0, dataReady := false,
                   adcEnabled := false, rxBuf := [] },
        out := some "OK_STOP\r\n", rearmed := true } :=
  uart_stop_recognized _ 'P' rfl

/-- Claim C4: the non-command bytes `"AB"` followed by `"START"` leave the
recognizer with no command recognized: sampling is still disabled, no
acknowledgement was transmitted, and the buffer holds the whole unmatched
prefix `"ABSTART"`, so the embedded `"START"` was never matched. -/
theorem unmatched_prefix_blocks_start :
    (processBytes "ABSTART".data initState).1.adcEnabled = false ∧
    (processBytes "ABSTART".data initState).2 = [] ∧
    (processBytes "ABSTART".data initState).1.rxBuf = "ABSTART".data :=
  ⟨rfl, rfl, rfl⟩

/-- Splitting a received byte sequence splits the processing. -/
theorem processBytes_append (xs ys : List Char) (s : State) :
    processBytes (xs ++ ys) s =
      ((processBytes ys (processBytes xs s).1).1,
        (processBytes xs s).2 ++ (processBytes ys (processBytes xs s).1).2) := by
  induction xs generalizing s with
  | nil => simp [processBytes]
  | cons b rest ih => simp [processBytes, ih]

/-- Processing `"START"` from an empty buffer enables sampling, empties the
buffer, transmits one acknowledgement and touches nothing else. -/
theorem process_start (s : State) (h : s.rxBuf = []) :
    processBytes "START".data s =
      ({ s with adcEnabled := true, rxBuf := [] }, ["OK_START\r\n"]) := by
  obtain ⟨sum, cnt, rdy, en, buf⟩ := s
  simp only [State.rxBuf] at h
  subst h
  simp [processBytes, UART_RX_Callback, RX_BUFFER_SIZE]

/-- Claim C7: processing `"START"` twice in a row from an empty buffer is
idempotent on the shared state: after each occurrence sampling is enabled
and the buffer is empty, exactly two acknowledgements `"OK_START\r\n"` are
transmitted, and neither occurrence modifies `adcSum`, `sampleCount` or
`dataReady`. -/
theorem start_twice_idempotent (s : State) (h : s.rxBuf = []) :
    processBytes "START".data s =
      ({ s with adcEnabled := true, rxBuf := [] }, ["OK_START\r\n"]) ∧
    processBytes ("START".data ++ "START".data) s =
      ({ s with adcEnabled := true, rxBuf := [] },
        ["OK_START\r\n", "OK_START\r\n"]) := by
  have h1 := process_start s h
  refine ⟨h1, ?_⟩
  rw [processBytes_append, h1]
  have h2 := process_start { s with adcEnabled := true, rxBuf := [] } rfl
  simp only at h2 ⊢
  rw [h2]
  rfl

/-- Witness for C7 at the power-on state. -/
theorem start_twice_idempotent_witness :
    processBytes "START".data initState =
      ({ initState with adcEnabled := true, rxBuf := [] },
        ["OK_START\r\n"]) ∧
    processBytes ("START".data ++ "START".data) initState =
      ({ initState with adcEnabled := true, rxBuf := [] },
        ["OK_START\r\n", "OK_START\r\n"]) :=
  start_twice_idempotent initState rfl

/-- A printable byte that fits in the buffer and does not complete a
command is appended; if the buffer just filled, the whole line is dropped
instead.  Nothing is transmitted and nothing else changes. -/
theorem uart_append_nomatch (b : Char) (s : State)
    (hpr : 0x20 ≤ b.toNat ∧ b.toNat ≤ 0x7E)
    (hroom : s.rxBuf.length < RX_BUFFER_SIZE - 1)
    (hns : s.rxBuf ++ [b] ≠ "START".data)
    (hnp : s.rxBuf ++ [b] ≠ "STOP".data) :
    UART_RX_Callback b s =
      { state := { s with rxBuf :=
          if RX_BUFFER_SIZE - 1 ≤ s.rxBuf.length + 1 then []
          else s.rxBuf ++ [b] },
        out := none, rearmed := true } := by
  simp only [UART_RX_Callback]
  rw [if_pos hpr, if_pos hroom, if_neg hns, if_neg hnp]
  simp only [List.length_append, List.length_singleton]
  split <;> rfl

/-- Printable bytes that never complete a command and do not yet fill the
buffer are accumulated verbatim, with no transmission and no other state
change. -/
theorem process_nomatch_short (bs : List Char) : ∀ s : State,
    s.rxBuf.length + bs.length < RX_BUFFER_SIZE - 1 →
    (∀ b ∈ bs, 0x20 ≤ b.toNat ∧ b.toNat ≤ 0x7E) →
    (∀ k, 1 ≤ k → s.rxBuf ++ bs.take k ≠ "START".data ∧
                  s.rxBuf ++ bs.take k ≠ "STOP".data) →
    processBytes bs s = ({ s with rxBuf := s.rxBuf ++ bs }, []) := by
  induction bs with
  | nil =>
    intro s _ _ _
    simp [processBytes]
  | cons b rest ih =>
    intro s hlen hpr hnm
    have hb : 0x20 ≤ b.toNat ∧ b.toNat ≤ 0x7E := hpr b (by simp)
    have h1 := hnm 1 (by omega)
    simp only [List.take_succ_cons, List.take_zero] at h1
    have hroom : s.rxBuf.length < RX_BUFFER_SIZE - 1 := by
      simp only [List.length_cons] at hlen; omega
    have hstep := uart_append_nomatch b s hb hroom h1.1 h1.2
    have hnotfull : ¬(RX_BUFFER_SIZE - 1 ≤ s.rxBuf.length + 1) := by
      simp only [List.length_cons] at hlen; omega
    rw [if_neg hnotfull] at hstep
    have hrest := ih { s with rxBuf := s.rxBuf ++ [b] }
      (by simp at hlen ⊢; omega)
      (fun x hx => hpr x (by simp [hx]))
      (by
        intro k hk
        have := hnm (k + 1) (by omega)
        simpa [List.take_succ_cons, List.append_assoc] using this)
    simp only [processBytes, hstep, hrest, Option.toList, List.nil_append,
      List.append_assoc, List.singleton_append]

/-- Claim C8: a sequence of printable bytes that fills the buffer to its
capacity minus one (15 characters) while its accumulated content never
equals `"START"` or `"STOP"` is dropped silently: the buffer is reset to
empty, nothing is transmitted, and the enable flag and accumulator are
unchanged. -/
theorem overlong_line_dropped (bs : List Char) (s : State)
    (hbuf : s.rxBuf = [])
    (hlen : bs.length = RX_BUFFER_SIZE - 1)
    (hpr : ∀ b ∈ bs, 0x20 ≤ b.toNat ∧ b.toNat ≤ 0x7E)
    (hnm : ∀ k, 1 ≤ k → k ≤ RX_BUFFER_SIZE - 1 →
      bs.take k ≠ "START".data ∧ bs.take k ≠ "STOP".data) :
    processBytes bs s = (s, []) := by
  obtain ⟨sum, cnt, rdy, en, buf⟩ := s
  simp only [State.rxBuf] at hbuf
  subst hbuf
  have hne : bs ≠ [] := by
    intro h
    rw [h] at hlen
    simp [RX_BUFFER_SIZE] at hlen
  have hsplit : bs.dropLast ++ [bs.getLast hne] = bs :=
    List.dropLast_append_getLast hne
  have hflen : bs.dropLast.length = RX_BUFFER_SIZE - 2 := by
    rw [List.length_dropLast, hlen]
    norm_num [RX_BUFFER_SIZE]
  have hftake : ∀ k, bs.dropLast.take k = bs.take (min k (RX_BUFFER_SIZE - 2)) := by
    intro k
    rw [List.dropLast_eq_take, hlen, List.take_take]
    norm_num [RX_BUFFER_SIZE]
  have hfull : bs.take (RX_BUFFER_SIZE - 1) = bs := by
    rw [← hlen, List.take_length]
  have hwhole := hnm (RX_BUFFER_SIZE - 1) (by decide) (le_refl _)
  rw [hfull] at hwhole
  rw [← hsplit, processBytes_append]
  have hfront := process_nomatch_short bs.dropLast
    ⟨sum, cnt, rdy, en, []⟩
    (by simp [hflen, RX_BUFFER_SIZE])
    (fun x hx => hpr x (List.dropLast_subset bs hx))
    (by
      intro k hk
      simp only [List.nil_append]
      rw [hftake k]
      exact hnm (min k (RX_BUFFER_SIZE - 2))
        (by simp only [RX_BUFFER_SIZE]; omega)
        (by simp only [RX_BUFFER_SIZE]; omega))
  rw [hfront]
  simp only [List.nil_append]
  have hb := hpr (bs.getLast hne) (List.getLast_mem hne)
  have hlast := uart_append_nomatch (bs.getLast hne)
    ⟨sum, cnt, rdy, en, bs.dropLast⟩ hb
    (by simp only [State.rxBuf]; rw [hflen]; decide)
    (by simp only [State.rxBuf]; rw [hsplit]; exact hwhole.1)
    (by simp only [State.rxBuf]; rw [hsplit]; exact hwhole.2)
  have hcond : RX_BUFFER_SIZE - 1 ≤
      (⟨sum, cnt, rdy, en, bs.dropLast⟩ : State).rxBuf.length + 1 := by
    simp only [State.rxBuf]
    rw [hflen]
    decide
  rw [if_pos hcond] at hlast
  simp only [processBytes, hlast, Option.toList, List.nil_append,
    List.append_nil]

/-- Witness for C8: the fifteen printable bytes `"ABCDEFGHIJKLMNO"` leave
the power-on state unchanged and produce no output. -/
theorem overlong_line_dropped_witness :
    processBytes "ABCDEFGHIJKLMNO".data initState = (initState, []) :=
  overlong_line_dropped "ABCDEFGHIJKLMNO".data initState rfl rfl
    (by decide)
    (by
      intro k h1 h15
      norm_num [RX_BUFFER_SIZE] at h15
      interval_cases k <;> exact (by decide))

/-- Feeding any byte sequence to the receive handler preserves
reachability. -/
theorem reachable_processBytes (bs : List Char) : ∀ s : State,
    Reachable s → Reachable (processBytes bs s).1 := by
  induction bs with
  | nil => intro s h; simpa [processBytes] using h
  | cons b rest ih =>
    intro s h
    simpa [processBytes] using ih _ (Reachable.uart b h)

/-- Any number of consecutive conversion interrupts preserves
reachability. -/
theorem reachable_adcStep_iterate (n : Nat) : ∀ s : State,
    Reachable s → Reachable ((adcStep 0)^[n] s) := by
  induction n with
  | zero => intro s h; simpa using h
  | succ n ih =>
    intro s h
    rw [Function.iterate_succ_apply]
    exact ih _ (Reachable.adc 0 h)

/-- The effect of one conversion interrupt while sampling is enabled. -/
theorem adcStep_enabled_eq (x : Nat) (s : State) (hen : s.adcEnabled = true) :
    adcStep x s =
      { s with
        adcSum := (s.adcSum + x) % UINT32_MOD,
        sampleCount := (s.sampleCount + 1) % UINT32_MOD,
        dataReady :=
          if ADC_SAMPLE_COUNT ≤ (s.sampleCount + 1) % UINT32_MOD then true
          else s.dataReady } := by
  simp [adcStep, ADC_Callback, hen]

/-- While the running count stays below the `uint32_t` modulus, `n`
consecutive conversion interrupts with sampling enabled add exactly `n` to
the count. -/
theorem adcStep_iterate_count (n : Nat) : ∀ s : State,
    s.adcEnabled = true → s.sampleCount + n < UINT32_MOD →
    ((adcStep 0)^[n] s).sampleCount = s.sampleCount + n ∧
    ((adcStep 0)^[n] s).adcEnabled = true := by
  induction n with
  | zero =>
    intro s hen _
    rw [Function.iterate_zero_apply]
    exact ⟨by omega, hen⟩
  | succ n ih =>
    intro s hen hlt
    rw [Function.iterate_succ_apply]
    have hmod : (s.sampleCount + 1) % UINT32_MOD = s.sampleCount + 1 :=
      Nat.mod_eq_of_lt (by omega)
    have hstep := adcStep_enabled_eq 0 s hen
    have h1 : (adcStep 0 s).sampleCount = s.sampleCount + 1 := by
      rw [hstep, hmod]
    have h2 : (adcStep 0 s).adcEnabled = true := by
      rw [hstep]
      exact hen
    have hrec := ih (adcStep 0 s) h2 (by rw [h1]; omega)
    rw [h1] at hrec
    exact ⟨by rw [hrec.1]; omega, hrec.2⟩

/-- The receive handler either leaves `sampleCount` and `dataReady` alone
or zeroes both (the `STOP` branch). -/
theorem uart_count_ready (b : Char) (s : State) :
    ((UART_RX_Callback b s).state.sampleCount = s.sampleCount ∧
     (UART_RX_Callback b s).state.dataReady = s.dataReady) ∨
    ((UART_RX_Callback b s).state.sampleCount = 0 ∧
     (UART_RX_Callback b s).state.dataReady = false) := by
  simp only [UART_RX_Callback]
  split
  · split
    · split
      · left; exact ⟨rfl, rfl⟩
      · split
        · right; exact ⟨rfl, rfl⟩
        · split
          · left; exact ⟨rfl, rfl⟩
          · left; exact ⟨rfl, rfl⟩
    · left; exact ⟨rfl, rfl⟩
  · left; exact ⟨rfl, rfl⟩

/-- Invariant: in every reachable state in which `dataReady` is false the
count is strictly below the window size. -/
theorem reachable_not_ready_count_lt (s : State) (h : Reachable s) :
    s.dataReady = false → s.sampleCount < ADC_SAMPLE_COUNT := by
  induction h with
  | init => intro _; decide
  | adc sample hr ih =>
    rename_i s
    cases hen : s.adcEnabled with
    | false =>
      simp only [ADC_Callback, hen, Bool.not_false, if_pos]
      exact ih
    | true =>
      intro hready'
      simp only [ADC_Callback, hen, Bool.not_true, Bool.false_eq_true,
        if_false] at hready' ⊢
      split at hready'
      · exact absurd hready' (by simp)
      · rename_i hlt
        omega
  | uart b hr ih =>
    rename_i s
    intro hready'
    rcases uart_count_ready b s with ⟨hc, hd⟩ | ⟨hc, hd⟩
    · rw [hc]
      exact ih (by rw [← hd]; exact hready')
    · rw [hc]
      decide
  | avg hr ih =>
    rename_i s
    intro _
    have hz : (Calculate_ADC_Average s).1.sampleCount = 0 := by
      simp only [Calculate_ADC_Average]
      split <;> rfl
    rw [hz]
    decide

/-- Claim C2 (amended): in every reachable state, `dataReady = false`
implies `sampleCount < ADC_SAMPLE_COUNT`, and any conversion interrupt
that raises `dataReady` from false to true leaves `sampleCount` exactly
equal to `ADC_SAMPLE_COUNT`.  (The count itself can exceed the window size
while `dataReady` stays true — see the counterexample.) -/
theorem window_ready_invariant (s : State) (h : Reachable s) :
    (s.dataReady = false → s.sampleCount < ADC_SAMPLE_COUNT) ∧
    (∀ sample : Nat, s.dataReady = false →
      (ADC_Callback sample s).state.dataReady = true →
      (ADC_Callback sample s).state.sampleCount = ADC_SAMPLE_COUNT) := by
  refine ⟨reachable_not_ready_count_lt s h, ?_⟩
  intro sample hready hready'
  cases hen : s.adcEnabled with
  | false =>
    simp only [ADC_Callback, hen, Bool.not_false, if_pos] at hready'
    rw [hready] at hready'
    exact absurd hready' (by simp)
  | true =>
    have hcnt := reachable_not_ready_count_lt s h hready
    have hmod : (s.sampleCount + 1) % UINT32_MOD = s.sampleCount + 1 :=
      Nat.mod_eq_of_lt (by
        have : ADC_SAMPLE_COUNT < UINT32_MOD := by decide
        omega)
    simp only [ADC_Callback, hen, Bool.not_true, Bool.false_eq_true,
      if_false, hmod] at hready' ⊢
    split at hready'
    · rename_i hge
      omega
    · rw [hready] at hready'
      exact absurd hready' (by simp)

/-- Witness for the amended C2, applied at the power-on state. -/
theorem window_ready_invariant_witness :
    initState.sampleCount < ADC_SAMPLE_COUNT :=
  (window_ready_invariant initState Reachable.init).1 rfl

/-- Counterexample to C2 as stated: after `START` and
`ADC_SAMPLE_COUNT + 1` conversion interrupts with no intervening reporter
run, the reachable state `cexState` has `sampleCount = 1201 > 1200`. -/
theorem window_count_bound_refuted :
    Reachable cexState ∧ ¬(cexState.sampleCount ≤ ADC_SAMPLE_COUNT) := by
  constructor
  · exact reachable_adcStep_iterate _ _
      (reachable_processBytes _ _ Reachable.init)
  · have hen : startedState.adcEnabled = true := rfl
    have hc : startedState.sampleCount = 0 := rfl
    have h := adcStep_iterate_count (ADC_SAMPLE_COUNT + 1) startedState hen
      (by rw [hc]; decide)
    have hcount : cexState.sampleCount =
        startedState.sampleCount + (ADC_SAMPLE_COUNT + 1) := h.1
    rw [hcount, hc]
    decide

/-- Sum of a list of naturals, each bounded by `m`, is at most
`length * m`. -/
theorem sum_le_length_mul (l : List Nat) (m : Nat) (h : ∀ x ∈ l, x ≤ m) :
    l.sum ≤ l.length * m := by
  induction l with
  | nil => simp
  | cons x xs ih =>
    simp only [List.sum_cons, List.length_cons]
    have hx := h x (by simp)
    have hxs := ih (fun y hy => h y (by simp [hy]))
    calc x + xs.sum ≤ m + xs.length * m := by omega
    _ = (xs.length + 1) * m := by ring

/-- While the running sum stays below the `uint32_t` modulus, the
accumulation in `ADC_Callback` is exact. -/
theorem foldAdc_sum_exact (samples : List Nat) : ∀ s : State,
    s.adcEnabled = true → s.adcSum + samples.sum < UINT32_MOD →
    (foldAdc samples s).adcSum = s.adcSum + samples.sum := by
  induction samples with
  | nil =>
    intro s _ _
    simp [foldAdc]
  | cons x xs ih =>
    intro s hen hlt
    simp only [List.sum_cons] at hlt
    have hstep := adcStep_enabled_eq x s hen
    have h1 : (adcStep x s).adcSum = s.adcSum + x := by
      rw [hstep]
      exact Nat.mod_eq_of_lt (by omega)
    have h2 : (adcStep x s).adcEnabled = true := by
      rw [hstep]
      exact hen
    have hrec := ih (adcStep x s) h2 (by rw [h1]; omega)
    simp only [foldAdc, List.foldl_cons] at hrec ⊢
    simp only [List.sum_cons]
    rw [hrec, h1]
    omega

/-- Claim C10: for a window of at most `ADC_SAMPLE_COUNT` samples, each
bounded by the ADC's maximum converted value, the running sum stays below
`2 ^ 32`, so the unguarded `uint32_t` additions in `ADC_Callback` compute
the exact sum. -/
theorem adc_sum_no_overflow (samples : List Nat) (s : State)
    (hen : s.adcEnabled = true) (hsum0 : s.adcSum = 0)
    (hlen : samples.length ≤ ADC_SAMPLE_COUNT)
    (hbound : ∀ x ∈ samples, x ≤ ADC_MAX_VALUE) :
    samples.sum < UINT32_MOD ∧
    (foldAdc samples s).adcSum = samples.sum := by
  have hb : samples.sum ≤ ADC_SAMPLE_COUNT * ADC_MAX_VALUE := by
    calc samples.sum ≤ samples.length * ADC_MAX_VALUE :=
          sum_le_length_mul _ _ hbound
    _ ≤ ADC_SAMPLE_COUNT * ADC_MAX_VALUE := Nat.mul_le_mul_right _ hlen
  have hlt : samples.sum < UINT32_MOD := by
    have hfits : ADC_SAMPLE_COUNT * ADC_MAX_VALUE < UINT32_MOD := by decide
    omega
  refine ⟨hlt, ?_⟩
  have hexact := foldAdc_sum_exact samples s hen (by rw [hsum0]; omega)
  rw [hexact, hsum0]
  omega

/-- Witness for C10: three enabled samples `[10, 20, 30]` accumulate to
exactly 60 with no wrap. -/
theorem adc_sum_no_overflow_witness :
    ([10, 20, 30] : List Nat).sum < UINT32_MOD ∧
    (foldAdc [10, 20, 30] startedState).adcSum =
      ([10, 20, 30] : List Nat).sum :=
  adc_sum_no_overflow [10, 20, 30] startedState rfl rfl (by decide)
    (by decide)
